import Mathlib

set_option autoImplicit false

/-!
Shallow embedding of the stroke-capture and synchronization core of the
OzerCrossword repository: the per-cell `SharedDrawing` variants
(src/shared-drawing.js and src/unnamed/part_003), the
`ContinuousHandwritingRecognition` class (src/handwriting.js) and the
`RoomManager` (src/firebase-app.js).  JS numbers are modelled by exact
rationals (`Rat`), timestamps by `Int`, JS objects keyed by cell strings by
association lists that keep the object's insertion order of keys.
-/

namespace Ozer

/-- A captured stroke point `{x, y, t}`: coordinates (percentages of the cell
rect, or raw pixels for legacy data) and the `Date.now()` capture timestamp. -/
structure Point where
  x : Rat
  y : Rat
  t : Int
  deriving DecidableEq

/-- A stroke is the ordered list of points captured between pointer-down and
pointer-up. -/
abbrev Stroke := List Point

/-- Cell keys are the `"row-col"` strings used to index `cellStrokes`. -/
abbrev CellKey := String

/-- The per-cell stroke collection `this.cellStrokes`: a JS object modelled as
an association list that keeps the object's insertion order of keys. -/
abbrev StrokeMap := List (CellKey × List Stroke)

/-- JS object lookup `cellStrokes[key]`: the value at the first matching key,
or the empty list when the key is absent (`|| []` at every use site). -/
def lookupStrokes : StrokeMap → CellKey → List Stroke
  | [], _ => []
  | (k, sts) :: rest, key => if k = key then sts else lookupStrokes rest key

/-- One point of the legacy pixel-to-percentage conversion in
`SharedDrawing.setupFirebaseSync` (src/unnamed/part_003 lines 448-455):
`Math.min((point.x / avgCellSize) * 100, 100)` with `avgCellSize = 70`,
likewise for `y`; the timestamp is kept. -/
def convertPoint (p : Point) : Point :=
  { x := min ((p.x / 70) * 100) 100, y := min ((p.y / 70) * 100) 100, t := p.t }

/-- The listener's test for an old pixel-based stroke:
`stroke.some(point => point.x > 100 || point.y > 100)`. -/
def isPixelBased (s : Stroke) : Bool :=
  s.any (fun p => p.x > 100 || p.y > 100)

/-- Per-stroke branch of the conversion loop: a pixel-based stroke is mapped
through `convertPoint`, a percentage-based stroke is pushed unchanged. -/
def convertStroke (s : Stroke) : Stroke :=
  if isPixelBased s then s.map convertPoint else s

/-- The whole conversion pass over an incoming snapshot (`convertedData` in
`setupFirebaseSync`, src/unnamed/part_003 lines 433-462). -/
def convertStrokeData (d : StrokeMap) : StrokeMap :=
  d.map (fun e => (e.1, e.2.map convertStroke))

/-- The `needsConversion` flag: set exactly when some stroke of the snapshot
is pixel-based. -/
def needsConversion (d : StrokeMap) : Bool :=
  d.any (fun e => e.2.any isPixelBased)

/-- A DOMRect as returned by `getBoundingClientRect()`. -/
structure Rect where
  left : Rat
  top : Rat
  width : Rat
  height : Rat
  deriving DecidableEq

/-- `SharedDrawing.getCellPointerPosition` (src/shared-drawing.js lines
206-228): the client position is made relative to the cell rect and stored as
a percentage (0-100) of the rect's width/height. -/
def getCellPointerPosition (cellRect : Rect) (clientX clientY : Rat) (now : Int) : Point :=
  let pixelX := clientX - cellRect.left
  let pixelY := clientY - cellRect.top
  { x := (pixelX / cellRect.width) * 100, y := (pixelY / cellRect.height) * 100, t := now }

/-- The percentage-to-pixel conversion of `SharedDrawing.drawStrokeSegmentInCell`
(src/shared-drawing.js lines 239-243): `(p.x / 100) * cellRect.width` and
`(p.y / 100) * cellRect.height` against the same cell rect. -/
def toCellPixels (cellRect : Rect) (p : Point) : Rat × Rat :=
  ((p.x / 100) * cellRect.width, (p.y / 100) * cellRect.height)

/-- Append a stroke to a cell's list exactly as
`if (!this.cellStrokes[cell]) this.cellStrokes[cell] = [];
this.cellStrokes[cell].push(stroke)` does: extend the existing entry in
place, or add a new key at the end of the object's key order. -/
def pushStroke : StrokeMap → CellKey → Stroke → StrokeMap
  | [], key, st => [(key, [st])]
  | (k, sts) :: rest, key, st =>
      if k = key then (k, sts ++ [st]) :: rest
      else (k, sts) :: pushStroke rest key st

/-- Remove the last stroke of `key`'s list (`.pop()`), deleting the key
entirely when its list becomes empty, as `SharedDrawing.undo` does
(src/unnamed/part_003 lines 372-376). -/
def popLastStroke : StrokeMap → CellKey → StrokeMap
  | [], _ => []
  | (k, sts) :: rest, key =>
      if k = key then
        if sts.dropLast.isEmpty then rest else (k, sts.dropLast) :: rest
      else (k, sts) :: popLastStroke rest key

/-- Delete a key from the collection (`delete this.cellStrokes[cellKey]`). -/
def removeKey : StrokeMap → CellKey → StrokeMap
  | [], _ => []
  | (k, sts) :: rest, key => if k = key then rest else (k, sts) :: removeKey rest key

/-- Default point, used only to give `stroke[stroke.length - 1]` a total
meaning; every theorem below supplies nonempty strokes, as the code persists
strokes only with at least one point. -/
def defaultPoint : Point := { x := 0, y := 0, t := 0 }

/-- Timestamp of a stroke's last point, `stroke[stroke.length - 1].t`. -/
def lastPointT (s : Stroke) : Int :=
  (s.getLastD defaultPoint).t

/-- One step of the scan in `SharedDrawing.undo` (src/unnamed/part_003 lines
356-368): skip cells with no strokes, and keep the candidate whose last
stroke's last-point timestamp is strictly greater than the best so far
(`lastTimestamp` starts at 0). -/
def undoScanStep (acc : Option (CellKey × Stroke) × Int) (e : CellKey × List Stroke) :
    Option (CellKey × Stroke) × Int :=
  match e.2.getLast? with
  | none => acc
  | some stroke =>
      if lastPointT stroke > acc.2 then (some (e.1, stroke), lastPointT stroke) else acc

/-- The full scan of `SharedDrawing.undo`: the globally most recent stroke
with its cell key, or `none` when no cell has a stroke with positive
last-point timestamp. -/
def findLastStroke (cs : StrokeMap) : Option (CellKey × Stroke) :=
  (cs.foldl undoScanStep (none, 0)).1

/-- The mutable fields of the per-cell `SharedDrawing` variant
(src/unnamed/part_003) that the stroke-lifecycle claims depend on.
`syncTimerPending` models whether `this.syncTimer` holds an armed timer. -/
structure DrawState where
  cellStrokes : StrokeMap
  undoneStrokes : List (CellKey × Stroke)
  syncTimerPending : Bool
  isInDrawingSession : Bool
  deriving DecidableEq

/-- The payload of `syncStrokesToFirebase` (src/unnamed/part_003 lines
514-538): an empty collection is written as `null` (modelled `none`),
otherwise the full collection is written. -/
def syncPayload (cs : StrokeMap) : Option StrokeMap :=
  if cs.isEmpty then none else some cs

/-- `SharedDrawing.handleCellPointerUp` of the debounced variant
(src/unnamed/part_003 lines 190-244), invoked while `isDrawing`, given the
gesture's cell and captured stroke.  Returns the new state and the store
writes the handler itself performs — always none: a stroke shorter than 2
points is discarded, and otherwise the handler only appends the stroke,
clears the redo stack and (re)arms the 800 ms sync timer. -/
def handleCellPointerUp (s : DrawState) (currentCell : CellKey) (currentStroke : Stroke) :
    DrawState × List (Option StrokeMap) :=
  if currentStroke.length < 2 then (s, [])
  else
    ({ s with
        cellStrokes := pushStroke s.cellStrokes currentCell currentStroke,
        undoneStrokes := [],
        syncTimerPending := true }, [])

/-- The 800 ms debounce timer callback armed by `handleCellPointerUp`
(src/unnamed/part_003 lines 228-238): it ends the drawing session and
performs the single write of the full stroke collection. -/
def syncTimerFire (s : DrawState) : DrawState × List (Option StrokeMap) :=
  ({ s with isInDrawingSession := false, syncTimerPending := false },
   [syncPayload s.cellStrokes])

/-- `SharedDrawing.handleCellPointerUp` of the non-debounced variant
(src/shared-drawing.js lines 172-204): the completed stroke is appended and
`syncStrokesToFirebase` is called via `setTimeout` with `syncDelay` 0 on
desktop — every completed stroke produces its own write of the then-current
collection, with no timer that a later stroke could cancel. -/
def handleCellPointerUpImmediate (cellStrokes : StrokeMap)
    (currentCell : CellKey) (currentStroke : Stroke) :
    StrokeMap × List (Option StrokeMap) :=
  if currentStroke.length < 2 then (cellStrokes, [])
  else
    let cs := pushStroke cellStrokes currentCell currentStroke
    (cs, [syncPayload cs])

/-- `SharedDrawing.undo` (src/unnamed/part_003 lines 344-386): cancel any
pending sync timer, remove the globally most recent stroke (scanning by
last-point timestamp), push it on the redo stack `undoneStrokes`, and
immediately sync the remaining collection. -/
def undo (s : DrawState) : DrawState × List (Option StrokeMap) :=
  let s0 := { s with syncTimerPending := false }
  match findLastStroke s.cellStrokes with
  | none => (s0, [])
  | some (key, stroke) =>
      let cs := popLastStroke s.cellStrokes key
      ({ s0 with
          cellStrokes := cs,
          undoneStrokes := s.undoneStrokes ++ [(key, stroke)] }, [syncPayload cs])

/-- `SharedDrawing.redo` (src/unnamed/part_003 lines 388-410): cancel any
pending sync timer, pop the redo stack, append the stroke back to its cell,
and immediately sync. -/
def redo (s : DrawState) : DrawState × List (Option StrokeMap) :=
  let s0 := { s with syncTimerPending := false }
  match s.undoneStrokes.getLast? with
  | none => (s0, [])
  | some (key, stroke) =>
      let cs := pushStroke s.cellStrokes key stroke
      ({ s0 with
          cellStrokes := cs,
          undoneStrokes := s.undoneStrokes.dropLast }, [syncPayload cs])

/-- Observable result of one invocation of the `cellStrokes` value listener
of src/unnamed/part_003 (`setupFirebaseSync`, lines 421-509). -/
structure ListenerResult where
  cellStrokes : StrokeMap
  redrawnCells : List CellKey
  redrewAllCells : Bool
  wroteBackConverted : Bool
  deriving DecidableEq

/-- The cells the listener redraws when a changed snapshot arrives outside a
drawing session (src/unnamed/part_003 lines 482-494): those whose remote
list has strictly more strokes than the local one. -/
def cellsToRedraw (conv loc : StrokeMap) : List CellKey :=
  (conv.filter (fun e => (lookupStrokes loc e.1).length < e.2.length)).map (fun e => e.1)

/-- One invocation of the remote `value` listener (src/unnamed/part_003 lines
421-509) on local collection `loc` with session flag `inSession`; `data` is
`snapshot.val()`, with `none` modelling `null`.  A `null` snapshot empties
the collection and redraws every cell; otherwise the snapshot is converted,
written back if the conversion changed anything, compared against the local
collection (`JSON.stringify` equality), buffered without rendering when a
drawing session is active, and otherwise applied with a redraw of exactly
the cells that gained strokes. -/
def listenerStep (inSession : Bool) (loc : StrokeMap) (data : Option StrokeMap) :
    ListenerResult :=
  match data with
  | none =>
      { cellStrokes := [], redrawnCells := [], redrewAllCells := true,
        wroteBackConverted := false }
  | some d =>
      let conv := convertStrokeData d
      let wrote := needsConversion d
      if conv = loc then
        { cellStrokes := loc, redrawnCells := [], redrewAllCells := false,
          wroteBackConverted := wrote }
      else if inSession then
        { cellStrokes := conv, redrawnCells := [], redrewAllCells := false,
          wroteBackConverted := wrote }
      else
        { cellStrokes := conv, redrawnCells := cellsToRedraw conv loc,
          redrewAllCells := false, wroteBackConverted := wrote }

/-- `ContinuousHandwritingRecognition.handlePointerUp` (src/handwriting.js
lines 206-225): while drawing, any current stroke with at least one point is
pushed onto the current cell's persisted list (`handlePointerDown` has
already created the entry); there is no minimum-length check.  Returns the
new collection and the cleared `currentStroke`. -/
def hwHandlePointerUp (isDrawing : Bool) (cellStrokes : StrokeMap)
    (currentCell : Option CellKey) (currentStroke : Stroke) : StrokeMap × Stroke :=
  if !isDrawing then (cellStrokes, currentStroke)
  else
    match currentCell with
    | some cellKey =>
        if currentStroke.length > 0 then (pushStroke cellStrokes cellKey currentStroke, [])
        else (cellStrokes, [])
    | none => (cellStrokes, [])

/-- Outcome of `window.hebrewKNN.predict` as observed by
`recognizeHandwriting` (src/handwriting.js lines 287-341): the classifier may
be unavailable (`!window.hebrewKNN || !window.hebrewKNN.isReady`), the call
may throw, or it may return nothing or a letter with a confidence. -/
inductive PredictOutcome where
  | notReady
  | thrown
  | noResult
  | result (letter : String) (confidence : Rat)
  deriving DecidableEq

/-- `ContinuousHandwritingRecognition.recognizeHandwriting`
(src/handwriting.js lines 287-341): the recognized letter is returned only
when the classifier is ready, did not throw, produced a result, and its
confidence is strictly above 0.6; every failure path returns `null` — the
`catch` swallows thrown errors inside the function. -/
def recognizeHandwriting (o : PredictOutcome) : Option String :=
  match o with
  | .notReady => none
  | .thrown => none
  | .noResult => none
  | .result letter confidence => if confidence > 6/10 then some letter else none

/-- The failure condition of C8: low confidence (not above the 0.6
threshold), no result, classifier unavailable, or a thrown error. -/
def isRecognitionFailure (o : PredictOutcome) : Bool :=
  match o with
  | .notReady => true
  | .thrown => true
  | .noResult => true
  | .result _ confidence => decide (confidence ≤ 6/10)

/-- A crossword grid cell as created by `RoomManager.initializeGrid`
(src/firebase-app.js lines 262-276). -/
structure GridCell where
  letter : String
  isBlack : Bool
  timestamp : Option Int
  deriving DecidableEq

/-- The shared grid, a 2D array of cells. -/
abbrev Grid := List (List GridCell)

/-- Apply `f` at index `i` of a list, leaving everything else unchanged. -/
def modifyAt {α : Type} (f : α → α) : List α → Nat → List α
  | [], _ => []
  | a :: rest, 0 => f a :: rest
  | a :: rest, n + 1 => a :: modifyAt f rest n

/-- `RoomManager.updateCell` (src/firebase-app.js lines 313-325), as invoked
through `app.crosswordGrid.updateCell`: write the letter and a fresh
timestamp at `grid[row][col]`. -/
def updateCell (g : Grid) (row col : Nat) (letter : String) (now : Int) : Grid :=
  modifyAt
    (fun r => modifyAt (fun c => { c with letter := letter, timestamp := some now }) r col)
    g row

/-- Result of `ContinuousHandwritingRecognition.finalizeCell`: the stroke
store, the grid, and the list of cell updates issued to the shared store. -/
structure FinalizeResult where
  cellStrokes : StrokeMap
  grid : Grid
  updates : List (Nat × Nat × String)
  deriving DecidableEq

/-- `ContinuousHandwritingRecognition.finalizeCell` (src/handwriting.js lines
254-285) on cell (row, col), with the classifier's behaviour given by `o`.
Recognition runs only when the cell has strokes and auto-recognition is
enabled; a truthy recognized letter updates the cell and clears the cell's
strokes; a `null` result leaves the strokes, grid and shared store untouched
and no error escapes. -/
def finalizeCell (cellStrokes : StrokeMap) (g : Grid) (recognitionEnabled : Bool)
    (row col : Nat) (now : Int) (o : PredictOutcome) : FinalizeResult :=
  let cellKey := toString row ++ "," ++ toString col
  let strokes := lookupStrokes cellStrokes cellKey
  if strokes.isEmpty then { cellStrokes := cellStrokes, grid := g, updates := [] }
  else if !recognitionEnabled then { cellStrokes := cellStrokes, grid := g, updates := [] }
  else
    match recognizeHandwriting o with
    | some letter =>
        if letter.isEmpty then { cellStrokes := cellStrokes, grid := g, updates := [] }
        else
          { cellStrokes := removeKey cellStrokes cellKey,
            grid := updateCell g row col letter now,
            updates := [(row, col, letter)] }
    | none => { cellStrokes := cellStrokes, grid := g, updates := [] }

/-- `CONFIG.ROOM_ID_LENGTH` (src/firebase-app.js line 8). -/
def ROOM_ID_LENGTH : Nat := 6

/-- The alphabet of `RoomManager.generateRoomId` (src/firebase-app.js line
186): uppercase A-Z and digits 0-9. -/
def roomIdChars : List Char := "ABCDEFGHIJKLMNOPQRSTUVWXYZ0123456789".toList

/-- `chars.charAt(i)`: a one-character string for a valid index and the empty
string otherwise, as in JS. -/
def charAt (chars : List Char) (i : Nat) : String :=
  match chars.get? i with
  | some c => String.mk [c]
  | none => ""

/-- `RoomManager.generateRoomId` (src/firebase-app.js lines 185-192), with
the values of `Math.floor(Math.random() * chars.length)` supplied by `rand`
(one per loop iteration). -/
def generateRoomId (rand : Nat → Nat) : String :=
  (List.range ROOM_ID_LENGTH).foldl (fun id i => id ++ charAt roomIdChars (rand i)) ""

/-- A room record, reduced to the fields `joinRoom` touches. -/
structure Room where
  id : String
  participants : Nat
  deriving DecidableEq

/-- Lookup of `rooms/{roomId}` in the store. -/
def lookupRoom : List (String × Room) → String → Option Room
  | [], _ => none
  | (k, room) :: rest, key => if k = key then some room else lookupRoom rest key

/-- JS `String.prototype.toUpperCase()` on the character sequence (ASCII
letters are uppercased; Hebrew and digits are unchanged, as in JS). -/
def jsToUpper (s : String) : String :=
  String.mk (s.toList.map Char.toUpper)

/-- Whitespace characters removed by JS `String.prototype.trim()`. -/
def isJsWhitespace (c : Char) : Bool :=
  c = ' ' || c = '\t' || c = '\n' || c = '\r'

/-- JS `String.prototype.trim()`: drop whitespace from both ends. -/
def jsTrim (s : String) : String :=
  String.mk (((s.toList.dropWhile isJsWhitespace).reverse.dropWhile isJsWhitespace).reverse)

/-- `RoomManager.joinRoom` (src/firebase-app.js lines 278-311): normalize the
entered code with `toUpperCase().trim()`, reject codes whose length is not
`ROOM_ID_LENGTH` with the `INVALID_FORMAT` error (in which case
`currentRoom`/`currentRoomId` are never assigned — no room is joined),
reject unknown rooms with `ROOM_NOT_FOUND`, and otherwise increment the
participant count and join the room. -/
def joinRoom (store : List (String × Room)) (input : String) :
    Except String (String × Room) :=
  let roomId := jsTrim (jsToUpper input)
  if roomId.length ≠ ROOM_ID_LENGTH then Except.error "INVALID_FORMAT"
  else
    match lookupRoom store roomId with
    | none => Except.error "ROOM_NOT_FOUND"
    | some room => Except.ok (roomId, { room with participants := room.participants + 1 })

theorem convertPoint_x_le (p : Point) : (convertPoint p).x ≤ 100 :=
  min_le_right _ _

theorem convertPoint_y_le (p : Point) : (convertPoint p).y ≤ 100 :=
  min_le_right _ _

theorem isPixelBased_map_convertPoint (s : Stroke) :
    isPixelBased (s.map convertPoint) = false := by
  simp only [isPixelBased, List.any_map, List.any_eq_false, Function.comp]
  intro p _
  simp only [Bool.or_eq_true, decide_eq_true_eq, not_or, not_lt]
  exact ⟨convertPoint_x_le p, convertPoint_y_le p⟩

theorem isPixelBased_convertStroke (s : Stroke) :
    isPixelBased (convertStroke s) = false := by
  rw [convertStroke]
  by_cases h : isPixelBased s = true
  · rw [if_pos h]
    exact isPixelBased_map_convertPoint s
  · rw [if_neg h]
    exact Bool.eq_false_iff.mpr h

theorem convertStroke_idem (s : Stroke) :
    convertStroke (convertStroke s) = convertStroke s := by
  have h := isPixelBased_convertStroke s
  generalize convertStroke s = t at h ⊢
  rw [convertStroke, h]
  simp

theorem mem_convertStroke_le (s : Stroke) (p : Point) (hp : p ∈ convertStroke s) :
    p.x ≤ 100 ∧ p.y ≤ 100 := by
  have h := isPixelBased_convertStroke s
  simp only [isPixelBased, List.any_eq_false, Bool.or_eq_true, decide_eq_true_eq,
    not_or, not_lt] at h
  exact h p hp

theorem lookupStrokes_eq_nil_of_not_mem (m : StrokeMap) (key : CellKey)
    (h : key ∉ m.map Prod.fst) : lookupStrokes m key = [] := by
  induction m with
  | nil => rfl
  | cons e rest ih =>
      simp only [List.map_cons, List.mem_cons, not_or] at h
      obtain ⟨k0, sts⟩ := e
      simp only [lookupStrokes]
      rw [if_neg (fun hh => h.1 hh.symm)]
      exact ih h.2

theorem lookupStrokes_eq_of_mem (m : StrokeMap) (key : CellKey) (sts : List Stroke)
    (hnd : (m.map Prod.fst).Nodup) (hmem : (key, sts) ∈ m) :
    lookupStrokes m key = sts := by
  induction m with
  | nil => simp at hmem
  | cons e rest ih =>
      simp only [List.map_cons, List.nodup_cons] at hnd
      rcases List.mem_cons.mp hmem with h | h
      · subst h
        simp [lookupStrokes]
      · have hkey : key ∈ rest.map Prod.fst := List.mem_map_of_mem Prod.fst h
        have hne : e.1 ≠ key := fun hh => hnd.1 (hh ▸ hkey)
        obtain ⟨k0, sts0⟩ := e
        simp only [lookupStrokes]
        rw [if_neg hne]
        exact ih hnd.2 h

theorem mem_of_lookupStrokes_ne_nil (m : StrokeMap) (key : CellKey)
    (h : lookupStrokes m key ≠ []) : (key, lookupStrokes m key) ∈ m := by
  induction m with
  | nil => simp [lookupStrokes] at h
  | cons e rest ih =>
      obtain ⟨k0, sts⟩ := e
      by_cases hk : k0 = key
      · subst hk
        simp [lookupStrokes]
      · simp only [lookupStrokes, if_neg hk] at h ⊢
        exact List.mem_cons_of_mem _ (ih h)

theorem lookupStrokes_pushStroke_self (m : StrokeMap) (key : CellKey) (st : Stroke) :
    lookupStrokes (pushStroke m key st) key = lookupStrokes m key ++ [st] := by
  induction m with
  | nil => simp [pushStroke, lookupStrokes]
  | cons e rest ih =>
      obtain ⟨k0, sts⟩ := e
      by_cases h : k0 = key
      · simp [pushStroke, lookupStrokes, h]
      · simp [pushStroke, lookupStrokes, h, ih]

theorem lookupStrokes_pushStroke_ne (m : StrokeMap) (key k : CellKey) (st : Stroke)
    (h : k ≠ key) : lookupStrokes (pushStroke m key st) k = lookupStrokes m k := by
  induction m with
  | nil => simp [pushStroke, lookupStrokes, Ne.symm h]
  | cons e rest ih =>
      obtain ⟨k0, sts⟩ := e
      by_cases hk : k0 = key
      · subst hk
        simp [pushStroke, lookupStrokes, Ne.symm h]
      · by_cases hk0 : k0 = k
        · simp [pushStroke, lookupStrokes, hk, hk0, h]
        · simp [pushStroke, lookupStrokes, hk, hk0, ih]

theorem lookupStrokes_popLastStroke_self (m : StrokeMap) (key : CellKey)
    (hnd : (m.map Prod.fst).Nodup) :
    lookupStrokes (popLastStroke m key) key = (lookupStrokes m key).dropLast := by
  induction m with
  | nil => simp [popLastStroke, lookupStrokes]
  | cons e rest ih =>
      simp only [List.map_cons, List.nodup_cons] at hnd
      obtain ⟨k0, sts⟩ := e
      by_cases h : k0 = key
      · subst h
        have hnot : lookupStrokes rest k0 = [] :=
          lookupStrokes_eq_nil_of_not_mem rest k0 hnd.1
        by_cases he : sts.dropLast.isEmpty
        · simp [popLastStroke, lookupStrokes, he, hnot, List.isEmpty_iff.mp he]
        · simp [popLastStroke, lookupStrokes, he]
      · simp [popLastStroke, lookupStrokes, h, ih hnd.2]

theorem lookupStrokes_popLastStroke_ne (m : StrokeMap) (key k : CellKey)
    (h : k ≠ key) : lookupStrokes (popLastStroke m key) k = lookupStrokes m k := by
  induction m with
  | nil => simp [popLastStroke, lookupStrokes]
  | cons e rest ih =>
      obtain ⟨k0, sts⟩ := e
      by_cases hk : k0 = key
      · subst hk
        by_cases he : sts.dropLast.isEmpty
        · simp [popLastStroke, lookupStrokes, he, Ne.symm h]
        · simp [popLastStroke, lookupStrokes, he, Ne.symm h]
      · by_cases hk0 : k0 = k
        · simp [popLastStroke, lookupStrokes, hk, hk0, h]
        · simp [popLastStroke, lookupStrokes, hk, hk0, ih]

theorem dropLast_concat_of_getLast? {α : Type} (l : List α) (a : α)
    (h : l.getLast? = some a) : l.dropLast ++ [a] = l := by
  have hne : l ≠ [] := by
    rintro rfl
    simp at h
  rw [List.getLast?_eq_getLast l hne] at h
  rw [← Option.some.inj h]
  exact List.dropLast_append_getLast hne

theorem undoScanStep_cases (acc : Option (CellKey × Stroke) × Int) (e : CellKey × List Stroke) :
    (undoScanStep acc e).1 = acc.1 ∨
      ∃ st, e.2.getLast? = some st ∧ (undoScanStep acc e).1 = some (e.1, st) := by
  unfold undoScanStep
  cases h : e.2.getLast? with
  | none => left; rfl
  | some st =>
      by_cases hgt : lastPointT st > acc.2
      · right
        exact ⟨st, rfl, by simp [hgt]⟩
      · left
        simp [hgt]

theorem foldl_undoScanStep_preserve (l : StrokeMap) :
    ∀ acc : Option (CellKey × Stroke) × Int,
      (∀ e ∈ l, ∀ st, e.2.getLast? = some st → lastPointT st ≤ acc.2) →
      l.foldl undoScanStep acc = acc := by
  induction l with
  | nil => intro acc _; rfl
  | cons e rest ih =>
      intro acc h
      have hstep : undoScanStep acc e = acc := by
        unfold undoScanStep
        cases hl : e.2.getLast? with
        | none => rfl
        | some st =>
            have hle := h e (List.mem_cons_self e rest) st hl
            simp [not_lt.mpr hle]
      rw [List.foldl_cons, hstep]
      exact ih acc (fun e' he' st hst => h e' (List.mem_cons_of_mem e he') st hst)

theorem foldl_undoScanStep_max (l : StrokeMap) :
    ∀ (acc : Option (CellKey × Stroke) × Int) (key : CellKey) (sts : List Stroke)
      (stroke : Stroke),
      (l.map Prod.fst).Nodup →
      (key, sts) ∈ l →
      sts.getLast? = some stroke →
      acc.2 < lastPointT stroke →
      (∀ e ∈ l, e.1 ≠ key → ∀ st, e.2.getLast? = some st →
          lastPointT st < lastPointT stroke) →
      l.foldl undoScanStep acc = (some (key, stroke), lastPointT stroke) := by
  induction l with
  | nil =>
      intro acc key sts stroke _ hmem _ _ _
      simp at hmem
  | cons e rest ih =>
      intro acc key sts stroke hnd hmem hlast hacc hmax
      simp only [List.map_cons, List.nodup_cons] at hnd
      rw [List.foldl_cons]
      rcases List.mem_cons.mp hmem with heq | hmem'
      · subst heq
        have hstep : undoScanStep acc (key, sts) = (some (key, stroke), lastPointT stroke) := by
          unfold undoScanStep
          simp [hlast, hacc]
        rw [hstep]
        apply foldl_undoScanStep_preserve
        intro e' he' st hst
        have hne : e'.1 ≠ key := by
          intro hh
          apply hnd.1
          have hmm : e'.1 ∈ rest.map Prod.fst := List.mem_map_of_mem Prod.fst he'
          rwa [hh] at hmm
        exact le_of_lt (hmax e' (List.mem_cons_of_mem _ he') hne st hst)
      · have hkey : key ∈ rest.map Prod.fst := by
          have := List.mem_map_of_mem Prod.fst hmem'
          simpa using this
        have hne : e.1 ≠ key := fun hh => hnd.1 (hh ▸ hkey)
        have hacc' : (undoScanStep acc e).2 < lastPointT stroke := by
          unfold undoScanStep
          cases hl : e.2.getLast? with
          | none => exact hacc
          | some st =>
              have hlt := hmax e (List.mem_cons_self e rest) hne st hl
              by_cases hgt : lastPointT st > acc.2
              · simpa [hgt] using hlt
              · simpa [hgt] using hacc
        exact ih (undoScanStep acc e) key sts stroke hnd.2 hmem' hlast hacc'
          (fun e' he' hne' st hst => hmax e' (List.mem_cons_of_mem e he') hne' st hst)

theorem foldl_undoScanStep_shape (l : StrokeMap) :
    ∀ acc : Option (CellKey × Stroke) × Int,
      (l.foldl undoScanStep acc).1 = acc.1 ∨
        ∃ e ∈ l, ∃ st, e.2.getLast? = some st ∧
          (l.foldl undoScanStep acc).1 = some (e.1, st) := by
  induction l with
  | nil => intro acc; left; rfl
  | cons e rest ih =>
      intro acc
      rw [List.foldl_cons]
      rcases ih (undoScanStep acc e) with h | ⟨e', he', st, hst, heq⟩
      · rcases undoScanStep_cases acc e with h2 | ⟨st, hst, h2⟩
        · left
          rw [h, h2]
        · right
          exact ⟨e, List.mem_cons_self e rest, st, hst, by rw [h, h2]⟩
      · right
        exact ⟨e', List.mem_cons_of_mem e he', st, hst, heq⟩

theorem findLastStroke_mem (cs : StrokeMap) (key : CellKey) (stroke : Stroke)
    (h : findLastStroke cs = some (key, stroke)) :
    ∃ sts, (key, sts) ∈ cs ∧ sts.getLast? = some stroke := by
  unfold findLastStroke at h
  rcases foldl_undoScanStep_shape cs (none, 0) with h2 | ⟨e, he, st, hst, heq⟩
  · rw [h] at h2
    simp at h2
  · rw [h] at heq
    obtain ⟨k0, sts0⟩ := e
    have hp := Option.some.inj heq
    rw [Prod.ext_iff] at hp
    obtain ⟨h1, h2⟩ := hp
    subst h1
    subst h2
    exact ⟨sts0, he, hst⟩

theorem findLastStroke_eq (cs : StrokeMap) (key : CellKey) (sts : List Stroke) (stroke : Stroke)
    (hnd : (cs.map Prod.fst).Nodup) (hmem : (key, sts) ∈ cs)
    (hlast : sts.getLast? = some stroke) (hpos : 0 < lastPointT stroke)
    (hmax : ∀ e ∈ cs, e.1 ≠ key → ∀ st, e.2.getLast? = some st →
        lastPointT st < lastPointT stroke) :
    findLastStroke cs = some (key, stroke) := by
  unfold findLastStroke
  rw [foldl_undoScanStep_max cs (none, 0) key sts stroke hnd hmem hlast hpos hmax]

/-- C10. The legacy pixel-to-percentage conversion applied by the remote-update
listener is idempotent: converting its own output returns it unchanged, and
every point in converted output has x ≤ 100 and y ≤ 100, so no converted
stroke ever tests as pixel-based again. -/
theorem c10_conversion_idempotent (d : StrokeMap) :
    convertStrokeData (convertStrokeData d) = convertStrokeData d ∧
    ∀ e ∈ convertStrokeData d, ∀ st ∈ e.2, ∀ p ∈ st, p.x ≤ 100 ∧ p.y ≤ 100 := by
  constructor
  · unfold convertStrokeData
    rw [List.map_map]
    apply List.map_congr_left
    intro e _
    simp [Function.comp, convertStroke_idem, List.map_map]
  · intro e he st hst p hp
    unfold convertStrokeData at he
    obtain ⟨e', _, rfl⟩ := List.mem_map.mp he
    obtain ⟨st', _, rfl⟩ := List.mem_map.mp hst
    exact mem_convertStroke_le st' p hp

/-- C4. Normalizing a pointer position to a percentage of the cell rect and
converting back to pixels against the same rect returns the original pixel
position exactly (exact rational arithmetic; in particular within any rounding
tolerance), whenever the rect has positive width and height. -/
theorem c4_coordinate_roundtrip (r : Rect) (clientX clientY : Rat) (now : Int)
    (hw : 0 < r.width) (hh : 0 < r.height) :
    toCellPixels r (getCellPointerPosition r clientX clientY now) =
      (clientX - r.left, clientY - r.top) := by
  have hw' : r.width ≠ 0 := ne_of_gt hw
  have hh' : r.height ≠ 0 := ne_of_gt hh
  unfold toCellPixels getCellPointerPosition
  simp only [Prod.mk.injEq]
  constructor <;> field_simp <;> ring_nf

/-- Concrete instance of the coordinate round-trip: a touch at 35 px across a
70 × 50 px cell rect maps to 50 % and back to 35 px. -/
theorem c4_coordinate_roundtrip_witness :
    toCellPixels ⟨0, 0, 70, 50⟩ (getCellPointerPosition ⟨0, 0, 70, 50⟩ 35 10 1) =
      (35 - 0, 10 - 0) :=
  c4_coordinate_roundtrip ⟨0, 0, 70, 50⟩ 35 10 1 (by norm_num) (by norm_num)

/-- The invariant of C1: every stroke in the persisted per-cell collection
has at least 2 points. -/
def strokesMinTwo (cs : StrokeMap) : Prop :=
  ∀ e ∈ cs, ∀ st ∈ e.2, 2 ≤ st.length

theorem pushStroke_strokes_mem (m : StrokeMap) (key : CellKey) (st : Stroke) :
    ∀ e ∈ pushStroke m key st, ∀ t ∈ e.2, (∃ e' ∈ m, t ∈ e'.2) ∨ t = st := by
  induction m with
  | nil =>
      intro e he t ht
      simp only [pushStroke, List.mem_singleton] at he
      subst he
      simp only [List.mem_singleton] at ht
      right
      exact ht
  | cons e0 rest ih =>
      obtain ⟨k0, sts0⟩ := e0
      intro e he t ht
      by_cases h : k0 = key
      · simp only [pushStroke, if_pos h, List.mem_cons] at he
        rcases he with rfl | he'
        · simp only [List.mem_append, List.mem_singleton] at ht
          rcases ht with ht | ht
          · exact Or.inl ⟨(k0, sts0), List.mem_cons_self _ _, ht⟩
          · exact Or.inr ht
        · exact Or.inl ⟨e, List.mem_cons_of_mem _ he', ht⟩
      · simp only [pushStroke, if_neg h, List.mem_cons] at he
        rcases he with rfl | he'
        · exact Or.inl ⟨(k0, sts0), List.mem_cons_self _ _, ht⟩
        · rcases ih e he' t ht with ⟨e', he2, ht2⟩ | h2
          · exact Or.inl ⟨e', List.mem_cons_of_mem _ he2, ht2⟩
          · exact Or.inr h2

/-- C1 counterexample. In `ContinuousHandwritingRecognition.handlePointerUp`
(src/handwriting.js lines 206-225) a single-point stroke IS persisted: with a
one-point current stroke, pointer-up appends it to the cell's persisted
stroke list, which then holds a stroke with fewer than 2 points. -/
theorem c1_counterexample :
    lookupStrokes (hwHandlePointerUp true [("0,0", [])] (some "0,0")
        [{ x := 10, y := 20, t := 5 }]).1 "0,0" =
      [[{ x := 10, y := 20, t := 5 }]] ∧
    ([{ x := (10 : Rat), y := 20, t := 5 }] : Stroke).length < 2 := by
  decide

/-- C1 amended. Both `SharedDrawing` pointer-up handlers (the debounced
variant of src/unnamed/part_003 and the non-debounced one of
src/shared-drawing.js) discard a current stroke with fewer than 2 points,
leaving the persisted collection unchanged, and therefore preserve the
invariant that every persisted stroke has at least 2 points; the
`ContinuousHandwritingRecognition` pointer-up, by contrast, persists any
nonempty stroke (see the counterexample). -/
theorem c1_amended_min_two_points (s : DrawState) (cell : CellKey) (stroke : Stroke)
    (hinv : strokesMinTwo s.cellStrokes) :
    (stroke.length < 2 →
      (handleCellPointerUp s cell stroke).1.cellStrokes = s.cellStrokes ∧
      (handleCellPointerUpImmediate s.cellStrokes cell stroke).1 = s.cellStrokes) ∧
    strokesMinTwo (handleCellPointerUp s cell stroke).1.cellStrokes ∧
    strokesMinTwo (handleCellPointerUpImmediate s.cellStrokes cell stroke).1 := by
  by_cases hlen : stroke.length < 2
  · refine ⟨fun _ => ?_, ?_, ?_⟩
    · simp [handleCellPointerUp, handleCellPointerUpImmediate, hlen]
    · simpa [handleCellPointerUp, hlen] using hinv
    · simpa [handleCellPointerUpImmediate, hlen] using hinv
  · have hpush : strokesMinTwo (pushStroke s.cellStrokes cell stroke) := by
      intro e he t ht
      rcases pushStroke_strokes_mem s.cellStrokes cell stroke e he t ht with ⟨e', he', ht'⟩ | h2
      · exact hinv e' he' t ht'
      · rw [h2]
        exact not_lt.mp hlen
    refine ⟨fun hc => absurd hc hlen, ?_, ?_⟩
    · simpa [handleCellPointerUp, hlen] using hpush
    · simpa [handleCellPointerUpImmediate, hlen] using hpush

theorem c1_amended_min_two_points_witness :
    strokesMinTwo (handleCellPointerUp
        { cellStrokes := [], undoneStrokes := [], syncTimerPending := false,
          isInDrawingSession := true } "0-0"
        [{ x := 1, y := 1, t := 1 }, { x := 2, y := 2, t := 2 }]).1.cellStrokes :=
  (c1_amended_min_two_points
      { cellStrokes := [], undoneStrokes := [], syncTimerPending := false,
        isInDrawingSession := true } "0-0"
      [{ x := 1, y := 1, t := 1 }, { x := 2, y := 2, t := 2 }]
      (by simp [strokesMinTwo])).2.1

/-- C2 counterexample. A remote update whose snapshot value is `null` is
handled before the session check (src/unnamed/part_003 lines 426-431): even
while a drawing session is active it empties the local collection and clears
and redraws every cell canvas — including the actively-drawn cell's. -/
theorem c2_counterexample :
    (listenerStep true [("0-0", [[{ x := 1, y := 1, t := 1 }, { x := 2, y := 2, t := 2 }]])]
        none).redrewAllCells = true ∧
    (listenerStep true [("0-0", [[{ x := 1, y := 1, t := 1 }, { x := 2, y := 2, t := 2 }]])]
        none).cellStrokes = [] := by
  constructor
  · rfl
  · rfl

/-- C2 amended. While a drawing session is active, an incoming remote update
that carries a non-null stroke snapshot never redraws or clears any cell
canvas: when the converted snapshot differs from the local collection it is
only buffered into `cellStrokes` without rendering.  A null snapshot, in
contrast, clears and redraws all cells even mid-session. -/
theorem c2_amended_session_buffering (loc : StrokeMap) (d : StrokeMap) :
    (listenerStep true loc (some d)).redrawnCells = [] ∧
    (listenerStep true loc (some d)).redrewAllCells = false ∧
    (listenerStep true loc (some d)).cellStrokes =
      (if convertStrokeData d = loc then loc else convertStrokeData d) := by
  by_cases h : convertStrokeData d = loc <;> simp [listenerStep, h]

/-- C3 counterexample. In the `SharedDrawing` variant of src/shared-drawing.js
(lines 190-204) there is no debounce timer: the pointer-up handler itself
triggers `syncStrokesToFirebase`, so a single completed stroke is written to
the shared store at once, without waiting for any 800 ms pause. -/
theorem c3_counterexample :
    (handleCellPointerUpImmediate [] "0-0"
        [{ x := 1, y := 1, t := 1 }, { x := 2, y := 2, t := 2 }]).2 =
      [some [("0-0", [[{ x := 1, y := 1, t := 1 }, { x := 2, y := 2, t := 2 }]])]] := by
  decide

/-- C3 amended (true of the debounced variants src/unnamed/part_000 and
part_003, modelled here after part_003; src/shared-drawing.js instead
writes once per completed stroke, see the counterexample).  Pointer-up never
writes: it only saves the stroke and (re)arms the 800 ms debounce timer,
cancelling a pending one; the single write of the full collection happens
when the timer fires, so two strokes completed within the debounce window
are written together as one edit. -/
theorem c3_amended_debounced_batching (s : DrawState) (k : CellKey) (st1 st2 : Stroke)
    (h1 : 2 ≤ st1.length) (h2 : 2 ≤ st2.length) :
    (handleCellPointerUp s k st1).2 = [] ∧
    (handleCellPointerUp (handleCellPointerUp s k st1).1 k st2).2 = [] ∧
    (handleCellPointerUp (handleCellPointerUp s k st1).1 k st2).1.syncTimerPending = true ∧
    (syncTimerFire (handleCellPointerUp (handleCellPointerUp s k st1).1 k st2).1).2 =
      [syncPayload
        (handleCellPointerUp (handleCellPointerUp s k st1).1 k st2).1.cellStrokes] ∧
    lookupStrokes
        (handleCellPointerUp (handleCellPointerUp s k st1).1 k st2).1.cellStrokes k =
      lookupStrokes s.cellStrokes k ++ [st1, st2] := by
  have hn1 : ¬ st1.length < 2 := not_lt.mpr h1
  have hn2 : ¬ st2.length < 2 := not_lt.mpr h2
  refine ⟨by simp [handleCellPointerUp, hn1], by simp [handleCellPointerUp, hn1, hn2],
    by simp [handleCellPointerUp, hn1, hn2], rfl, ?_⟩
  simp only [handleCellPointerUp, if_neg hn1, if_neg hn2]
  rw [lookupStrokes_pushStroke_self, lookupStrokes_pushStroke_self, List.append_assoc]
  rfl

theorem c3_amended_debounced_batching_witness :
    (handleCellPointerUp
        { cellStrokes := [], undoneStrokes := [], syncTimerPending := false,
          isInDrawingSession := true } "0-0"
        [{ x := 1, y := 1, t := 1 }, { x := 2, y := 2, t := 2 }]).2 = [] :=
  (c3_amended_debounced_batching
      { cellStrokes := [], undoneStrokes := [], syncTimerPending := false,
        isInDrawingSession := true } "0-0"
      [{ x := 1, y := 1, t := 1 }, { x := 2, y := 2, t := 2 }]
      [{ x := 3, y := 3, t := 3 }, { x := 4, y := 4, t := 4 }]
      (by decide) (by decide)).1

/-- C5. When undo actually removes a stroke (the timestamp scan found a
globally most recent stroke), performing redo immediately afterwards
restores the per-cell stroke collection exactly: every cell key maps to the
same stroke list as before the undo, with the removed stroke back in its
cell at its original position with identical point data, and the redo stack
returns to its pre-undo value. -/
theorem c5_undo_redo_roundtrip (s : DrawState)
    (hnd : (s.cellStrokes.map Prod.fst).Nodup)
    (key : CellKey) (stroke : Stroke)
    (hfind : findLastStroke s.cellStrokes = some (key, stroke)) :
    (∀ k, lookupStrokes (redo (undo s).1).1.cellStrokes k =
        lookupStrokes s.cellStrokes k) ∧
    (redo (undo s).1).1.undoneStrokes = s.undoneStrokes := by
  obtain ⟨sts, hmem, hlast⟩ := findLastStroke_mem s.cellStrokes key stroke hfind
  have hlook : lookupStrokes s.cellStrokes key = sts :=
    lookupStrokes_eq_of_mem _ _ _ hnd hmem
  have hu : (undo s).1 =
      { cellStrokes := popLastStroke s.cellStrokes key,
        undoneStrokes := s.undoneStrokes ++ [(key, stroke)],
        syncTimerPending := false,
        isInDrawingSession := s.isInDrawingSession } := by
    unfold undo
    rw [hfind]
  have hr : (redo (undo s).1).1 =
      { cellStrokes := pushStroke (popLastStroke s.cellStrokes key) key stroke,
        undoneStrokes := s.undoneStrokes,
        syncTimerPending := false,
        isInDrawingSession := s.isInDrawingSession } := by
    rw [hu]
    unfold redo
    simp only [List.getLast?_concat, List.dropLast_concat]
  rw [hr]
  constructor
  · intro k
    by_cases hk : k = key
    · subst hk
      show lookupStrokes (pushStroke (popLastStroke s.cellStrokes k) k stroke) k =
        lookupStrokes s.cellStrokes k
      rw [lookupStrokes_pushStroke_self, lookupStrokes_popLastStroke_self _ _ hnd, hlook,
        dropLast_concat_of_getLast? sts stroke hlast]
    · show lookupStrokes (pushStroke (popLastStroke s.cellStrokes key) key stroke) k =
        lookupStrokes s.cellStrokes k
      rw [lookupStrokes_pushStroke_ne _ _ _ _ hk, lookupStrokes_popLastStroke_ne _ _ _ hk]
  · rfl

theorem c5_undo_redo_roundtrip_witness :
    lookupStrokes (redo (undo
        { cellStrokes := [("0-0", [[{ x := 1, y := 1, t := 1 }, { x := 2, y := 2, t := 7 }]])],
          undoneStrokes := [], syncTimerPending := true,
          isInDrawingSession := false }).1).1.cellStrokes "0-0" =
      lookupStrokes
        [("0-0", [[{ x := 1, y := 1, t := 1 }, { x := 2, y := 2, t := 7 }]])] "0-0" :=
  (c5_undo_redo_roundtrip
      { cellStrokes := [("0-0", [[{ x := 1, y := 1, t := 1 }, { x := 2, y := 2, t := 7 }]])],
        undoneStrokes := [], syncTimerPending := true, isInDrawingSession := false }
      (by decide) "0-0" [{ x := 1, y := 1, t := 1 }, { x := 2, y := 2, t := 7 }]
      (by decide)).1 "0-0"

/-- C6. Undo removes the globally most recent stroke: if cell `key`'s most
recent stroke has a last-point timestamp that is positive (as `Date.now()`
values are) and strictly greater than the last-point timestamp of every
other cell's most recent stroke, then undo removes exactly that stroke from
that cell, pushes it (with its cell) onto the redo stack, cancels any
pending debounce timer, immediately pushes the remaining collection to the
store, and leaves every other cell's strokes unchanged. -/
theorem c6_undo_removes_most_recent (s : DrawState) (key : CellKey) (sts : List Stroke)
    (stroke : Stroke)
    (hnd : (s.cellStrokes.map Prod.fst).Nodup)
    (hmem : (key, sts) ∈ s.cellStrokes)
    (hlast : sts.getLast? = some stroke)
    (hpos : 0 < lastPointT stroke)
    (hmax : ∀ e ∈ s.cellStrokes, e.1 ≠ key → e.2 ≠ [] →
        lastPointT (e.2.getLastD []) < lastPointT stroke) :
    (undo s).1.undoneStrokes = s.undoneStrokes ++ [(key, stroke)] ∧
    lookupStrokes (undo s).1.cellStrokes key = sts.dropLast ∧
    (∀ k, k ≠ key → lookupStrokes (undo s).1.cellStrokes k =
        lookupStrokes s.cellStrokes k) ∧
    (undo s).1.syncTimerPending = false ∧
    (undo s).2 = [syncPayload (popLastStroke s.cellStrokes key)] := by
  have hmax' : ∀ e ∈ s.cellStrokes, e.1 ≠ key → ∀ st, e.2.getLast? = some st →
      lastPointT st < lastPointT stroke := by
    intro e he hne st hst
    have hne2 : e.2 ≠ [] := by
      rintro h0
      rw [h0] at hst
      simp at hst
    have hD : e.2.getLastD [] = st := by
      rw [List.getLastD_eq_getLast?, hst]
      rfl
    rw [← hD]
    exact hmax e he hne hne2
  have hfind := findLastStroke_eq s.cellStrokes key sts stroke hnd hmem hlast hpos hmax'
  have hlook : lookupStrokes s.cellStrokes key = sts :=
    lookupStrokes_eq_of_mem _ _ _ hnd hmem
  have hu : (undo s).1 =
      { cellStrokes := popLastStroke s.cellStrokes key,
        undoneStrokes := s.undoneStrokes ++ [(key, stroke)],
        syncTimerPending := false,
        isInDrawingSession := s.isInDrawingSession } := by
    unfold undo
    rw [hfind]
  have hu2 : (undo s).2 = [syncPayload (popLastStroke s.cellStrokes key)] := by
    unfold undo
    rw [hfind]
  refine ⟨by rw [hu], ?_, ?_, by rw [hu], hu2⟩
  · rw [hu]
    show lookupStrokes (popLastStroke s.cellStrokes key) key = sts.dropLast
    rw [lookupStrokes_popLastStroke_self _ _ hnd, hlook]
  · intro k hk
    rw [hu]
    show lookupStrokes (popLastStroke s.cellStrokes key) k = lookupStrokes s.cellStrokes k
    exact lookupStrokes_popLastStroke_ne _ _ _ hk

theorem c6_undo_removes_most_recent_witness :
    (undo
        { cellStrokes :=
            [("0-0", [[{ x := 1, y := 1, t := 1 }, { x := 2, y := 2, t := 9 }]]),
             ("0-1", [[{ x := 3, y := 3, t := 2 }, { x := 4, y := 4, t := 4 }]])],
          undoneStrokes := [], syncTimerPending := true,
          isInDrawingSession := false }).1.undoneStrokes =
      [] ++ [("0-0", [{ x := 1, y := 1, t := 1 }, { x := 2, y := 2, t := 9 }])] :=
  (c6_undo_removes_most_recent
      { cellStrokes :=
          [("0-0", [[{ x := 1, y := 1, t := 1 }, { x := 2, y := 2, t := 9 }]]),
           ("0-1", [[{ x := 3, y := 3, t := 2 }, { x := 4, y := 4, t := 4 }]])],
        undoneStrokes := [], syncTimerPending := true, isInDrawingSession := false }
      "0-0" [[{ x := 1, y := 1, t := 1 }, { x := 2, y := 2, t := 9 }]]
      [{ x := 1, y := 1, t := 1 }, { x := 2, y := 2, t := 9 }]
      (by decide) (by decide) (by decide) (by decide) (by decide)).1

theorem keys_convertStrokeData (d : StrokeMap) :
    (convertStrokeData d).map Prod.fst = d.map Prod.fst := by
  simp [convertStrokeData, List.map_map, Function.comp]

theorem mem_cellsToRedraw (conv loc : StrokeMap) (hnd : (conv.map Prod.fst).Nodup)
    (k : CellKey) :
    k ∈ cellsToRedraw conv loc ↔
      (lookupStrokes loc k).length < (lookupStrokes conv k).length := by
  unfold cellsToRedraw
  constructor
  · intro hmem
    obtain ⟨e, he, rfl⟩ := List.mem_map.mp hmem
    obtain ⟨he2, hP⟩ := List.mem_filter.mp he
    have hl : lookupStrokes conv e.1 = e.2 :=
      lookupStrokes_eq_of_mem conv e.1 e.2 hnd he2
    rw [hl]
    simpa using hP
  · intro hlt
    have hne : lookupStrokes conv k ≠ [] := by
      intro h0
      rw [h0] at hlt
      simp at hlt
    have hmem := mem_of_lookupStrokes_ne_nil conv k hne
    apply List.mem_map.mpr
    refine ⟨(k, lookupStrokes conv k), List.mem_filter.mpr ⟨hmem, ?_⟩, rfl⟩
    simpa using hlt

/-- C7. For a non-null remote snapshot processed outside a drawing session
whose converted form differs from the local collection: exactly the cells
whose remote stroke count strictly exceeds the local count are redrawn,
cells with equal or fewer remote strokes are not, no full clear happens, and
the converted snapshot becomes the local collection.  The same snapshot
arriving mid-session is buffered into the local collection with no redraw at
all, so when the session ends the local state already holds the buffered
remote state. -/
theorem c7_redraw_selection (loc d : StrokeMap)
    (hnd : (d.map Prod.fst).Nodup)
    (hchanged : convertStrokeData d ≠ loc) :
    (∀ k, k ∈ (listenerStep false loc (some d)).redrawnCells ↔
        (lookupStrokes loc k).length <
          (lookupStrokes (convertStrokeData d) k).length) ∧
    (listenerStep false loc (some d)).redrewAllCells = false ∧
    (listenerStep false loc (some d)).cellStrokes = convertStrokeData d ∧
    (listenerStep true loc (some d)).redrawnCells = [] ∧
    (listenerStep true loc (some d)).cellStrokes = convertStrokeData d := by
  have hndc : ((convertStrokeData d).map Prod.fst).Nodup := by
    rw [keys_convertStrokeData]
    exact hnd
  refine ⟨?_, ?_, ?_, ?_, ?_⟩ <;> simp only [listenerStep, if_neg hchanged, if_pos rfl]
  · intro k
    exact mem_cellsToRedraw (convertStrokeData d) loc hndc k
  · rfl
  · rfl
  · simp
  · simp

theorem c7_redraw_selection_witness :
    "0-0" ∈ (listenerStep false []
        (some [("0-0", [[{ x := 1, y := 1, t := 1 }, { x := 2, y := 2, t := 2 }]])])).redrawnCells ↔
      (lookupStrokes [] "0-0").length <
        (lookupStrokes
          (convertStrokeData
            [("0-0", [[{ x := 1, y := 1, t := 1 }, { x := 2, y := 2, t := 2 }]])])
          "0-0").length :=
  (c7_redraw_selection []
      [("0-0", [[{ x := 1, y := 1, t := 1 }, { x := 2, y := 2, t := 2 }]])]
      (by decide) (by decide)).1 "0-0"

/-- C8. Every recognition failure — classifier unavailable, thrown error, no
result, or confidence not strictly above the 0.6 threshold — makes
`recognizeHandwriting` return `null`; `finalizeCell` then issues no cell
update and leaves the grid and the cell's strokes unchanged, and no error
propagates to the grid (the handler catches internally and returns `null`). -/
theorem c8_recognition_failure_silent (o : PredictOutcome)
    (hfail : isRecognitionFailure o = true)
    (cellStrokes : StrokeMap) (g : Grid) (recognitionEnabled : Bool)
    (row col : Nat) (now : Int) :
    recognizeHandwriting o = none ∧
    finalizeCell cellStrokes g recognitionEnabled row col now o =
      { cellStrokes := cellStrokes, grid := g, updates := [] } := by
  have hnone : recognizeHandwriting o = none := by
    cases o with
    | notReady => rfl
    | thrown => rfl
    | noResult => rfl
    | result letter confidence =>
        simp only [isRecognitionFailure, decide_eq_true_eq] at hfail
        simp [recognizeHandwriting, not_lt.mpr hfail]
  refine ⟨hnone, ?_⟩
  simp only [finalizeCell, hnone]
  split
  · rfl
  · split
    · rfl
    · rfl

theorem c8_recognition_failure_silent_witness :
    recognizeHandwriting PredictOutcome.thrown = none ∧
    finalizeCell [("0,0", [[{ x := 1, y := 1, t := 1 }]])]
        [[{ letter := "", isBlack := false, timestamp := none }]] true 0 0 5
        PredictOutcome.thrown =
      { cellStrokes := [("0,0", [[{ x := 1, y := 1, t := 1 }]])],
        grid := [[{ letter := "", isBlack := false, timestamp := none }]],
        updates := [] } :=
  c8_recognition_failure_silent PredictOutcome.thrown rfl
    [("0,0", [[{ x := 1, y := 1, t := 1 }]])]
    [[{ letter := "", isBlack := false, timestamp := none }]] true 0 0 5

theorem string_length_append (a b : String) : (a ++ b).length = a.length + b.length := by
  show (a ++ b).data.length = a.data.length + b.data.length
  rw [String.data_append, List.length_append]

theorem string_toList_append (a b : String) : (a ++ b).toList = a.toList ++ b.toList := by
  show (a ++ b).data = a.data ++ b.data
  exact String.data_append a b

theorem generateRoomId_aux (rand : Nat → Nat) (l : List Nat) :
    ∀ init : String,
      (∀ i ∈ l, rand i < roomIdChars.length) →
      (l.foldl (fun id i => id ++ charAt roomIdChars (rand i)) init).length =
          init.length + l.length ∧
        ∀ c ∈ (l.foldl (fun id i => id ++ charAt roomIdChars (rand i)) init).toList,
          c ∈ init.toList ∨ c ∈ roomIdChars := by
  induction l with
  | nil =>
      intro init _
      exact ⟨by simp, fun c hc => Or.inl hc⟩
  | cons i rest ih =>
      intro init h
      have hi : rand i < roomIdChars.length := h i (List.mem_cons_self i rest)
      obtain ⟨c, hc⟩ : ∃ c, roomIdChars.get? (rand i) = some c :=
        ⟨roomIdChars.get ⟨rand i, hi⟩, List.get?_eq_get hi⟩
      have hcmem : c ∈ roomIdChars := List.get?_mem hc
      have hch : charAt roomIdChars (rand i) = String.mk [c] := by
        unfold charAt
        rw [hc]
      rw [List.foldl_cons]
      obtain ⟨hlen, hmem⟩ :=
        ih (init ++ charAt roomIdChars (rand i))
          (fun j hj => h j (List.mem_cons_of_mem i hj))
      constructor
      · rw [hlen, string_length_append, hch]
        show init.length + 1 + rest.length = init.length + (rest.length + 1)
        omega
      · intro ch hch2
        rcases hmem ch hch2 with hin | hin
        · rw [string_toList_append, hch] at hin
          rcases List.mem_append.mp hin with hin2 | hin2
          · exact Or.inl hin2
          · refine Or.inr ?_
            have : ch = c := by simpa using hin2
            rw [this]
            exact hcmem
        · exact Or.inr hin

/-- C9. Every generated room code has exactly `ROOM_ID_LENGTH` = 6
characters, each drawn from the uppercase A-Z / digit 0-9 alphabet (given
that each `Math.floor(Math.random() * 36)` value is a valid index, which
`Math.random() < 1` guarantees); and `joinRoom` rejects any input whose
uppercased, trimmed form does not have exactly that length with the
`INVALID_FORMAT` error, joining no room. -/
theorem c9_room_code_format (rand : Nat → Nat)
    (hr : ∀ i, i < ROOM_ID_LENGTH → rand i < roomIdChars.length)
    (store : List (String × Room)) (input : String)
    (hlen : (jsTrim (jsToUpper input)).length ≠ ROOM_ID_LENGTH) :
    (generateRoomId rand).length = ROOM_ID_LENGTH ∧
    (∀ c ∈ (generateRoomId rand).toList, c ∈ roomIdChars) ∧
    joinRoom store input = Except.error "INVALID_FORMAT" := by
  obtain ⟨hl, hm⟩ :=
    generateRoomId_aux rand (List.range ROOM_ID_LENGTH) ""
      (fun i hi => hr i (List.mem_range.mp hi))
  refine ⟨?_, ?_, ?_⟩
  · unfold generateRoomId
    rw [hl]
    simp
  · intro c hc
    rcases hm c (by rwa [generateRoomId] at hc) with h | h
    · simp at h
    · exact h
  · simp only [joinRoom]
    rw [if_pos hlen]

theorem c9_room_code_format_witness :
    (generateRoomId (fun _ => 0)).length = ROOM_ID_LENGTH ∧
    joinRoom [] "abc" = Except.error "INVALID_FORMAT" := by
  have h36 : 0 < roomIdChars.length := by decide
  have h := c9_room_code_format (fun _ => 0) (fun i _ => h36) [] "abc" (by decide)
  exact ⟨h.1, h.2.2⟩

end Ozer
